import Mathlib

/-!
Verification development for the tinydfs metadata master.

The Go source keeps three catalogs in package-level maps: `chunksMap`
(chunk id → Chunk), `dataNodeMap` (node id → DataNode) and the FIFO
`pendingChunkQueue` of under-replicated chunk ids.  We embed this mutable
state as the record `MState` below and each mutating function of the
source as a state transformer.  Go `map[string]T` is embedded as an
association list `List (String × T)` (the source never relies on
iteration order for the properties studied here; where it iterates a set
we fix the normalized order of the embedded list).  A `set.Set` of the
deckarep library is embedded as a duplicate-free `List String` with
`setAdd` / `setRemove` mirroring `Add` / `Remove`.
-/

namespace TinyDFS

/-- `set.Set.Add`: append the element if it is not already present. -/
def setAdd (l : List String) (x : String) : List String :=
  if x ∈ l then l else l ++ [x]

/-- `set.Set.Remove`: drop every occurrence of the element. -/
def setRemove (l : List String) (x : String) : List String :=
  l.filter (fun y => y ≠ x)

/-- Association-list lookup, embedding Go `m[key]` (the `ok` form). -/
def findVal (key : String) : List (String × β) → Option β
  | [] => none
  | (k, v) :: rest => if k = key then some v else findVal key rest

/-- In-place update of the value stored under `key`, embedding a Go map
write through a pointer obtained by lookup.  Keys are unchanged. -/
def mapUpdate (key : String) (f : β → β) : List (String × β) → List (String × β)
  | [] => []
  | (k, v) :: rest =>
      if k = key then (k, f v) :: mapUpdate key f rest
      else (k, v) :: mapUpdate key f rest

/-- Go `delete(m, key)`. -/
def mapErase (key : String) : List (String × β) → List (String × β)
  | [] => []
  | (k, v) :: rest =>
      if k = key then mapErase key rest else (k, v) :: mapErase key rest

/-- `Chunk` of the master (richer copy of the chunk module): id,
committed replica set `dataNodes`, pending replica set
`pendingDataNodes`. -/
structure Chunk where
  id : String
  dataNodes : List String
  pendingDataNodes : List String
  deriving DecidableEq, Repr

/-- `common.SendType` values used by the heartbeat protocol. -/
inductive SendType where
  | copy
  | move
  deriving DecidableEq, Repr

/-- `ChunkSendInfo`: which chunk goes to which data node, and how. -/
structure ChunkSendInfo where
  chunkId : String
  dataNodeId : String
  sendType : SendType
  deriving DecidableEq, Repr

/-- Data-node status ladder (`common.Alive` / `common.Waiting` /
`common.Dead`). -/
inductive NodeStatus where
  | alive
  | waiting
  | dead
  deriving DecidableEq, Repr

/-- Transfer-plan entry states (`common.WaitToInform` /
`common.WaitToSend`). -/
inductive SendState where
  | waitToInform
  | waitToSend
  deriving DecidableEq, Repr

/-- `DataNode` record of the master. `futureSendChunks` embeds the Go map
`FutureSendChunks map[ChunkSendInfo]int` as an association list. -/
structure DataNode where
  id : String
  status : NodeStatus
  address : String
  chunks : List String
  ioLoad : Int
  futureSendChunks : List (ChunkSendInfo × SendState)
  heartbeatTime : Nat
  deriving DecidableEq, Repr

/-- The package-level mutable state of the master: `chunksMap`,
`dataNodeMap` and the shared `pendingChunkQueue` (front of the FIFO is
the head of the list; `Push` appends at the back). -/
structure MState where
  chunksMap : List (String × Chunk)
  dataNodeMap : List (String × DataNode)
  pendingChunkQueue : List String
  deriving DecidableEq, Repr

/-- The loop body of `BatchClearPendingDataNodes` for one chunk id: if
the chunk still exists, clear its pending set and push the id once onto
`pendingChunkQueue`. -/
def clearPendingStep (st : MState) (id : String) : MState :=
  match findVal id st.chunksMap with
  | none => st
  | some _ =>
      { st with
        chunksMap :=
          mapUpdate id (fun c => { c with pendingDataNodes := [] }) st.chunksMap
        pendingChunkQueue := st.pendingChunkQueue ++ [id] }

/-- `BatchClearPendingDataNodes`: run `clearPendingStep` over the given
slice of chunk ids. -/
def batchClearPendingDataNodes (chunkIds : List String) (s : MState) : MState :=
  chunkIds.foldl clearPendingStep s

/-- `util.ChunkTaskResult` carried by `BatchUpdatePendingDataNodes`. -/
structure ChunkTaskResult where
  chunkId : String
  successDataNodes : List String
  failDataNodes : List String
  deriving DecidableEq, Repr

/-- `BatchUpdatePendingDataNodes`: per result, add every success node to
the chunk's committed set, push the chunk id once per fail node, then
clear the pending set. -/
def batchUpdatePendingDataNodes (infos : List ChunkTaskResult) (s : MState) : MState :=
  infos.foldl
    (fun st info =>
      match findVal info.chunkId st.chunksMap with
      | none => st
      | some _ =>
          { st with
            chunksMap :=
              mapUpdate info.chunkId
                (fun c =>
                  { c with
                    dataNodes := info.successDataNodes.foldl setAdd c.dataNodes
                    pendingDataNodes := [] })
                st.chunksMap
            pendingChunkQueue :=
              st.pendingChunkQueue ++
                List.replicate info.failDataNodes.length info.chunkId })
    s

/-- `HeartbeatOperation` fields consumed by `UpdateChunk4Heartbeat`. -/
structure HeartbeatOperation where
  id : String
  dataNodeId : String
  successInfos : List ChunkSendInfo
  failInfos : List ChunkSendInfo
  invalidChunks : List String
  deriving DecidableEq, Repr

/-- The mutation `UpdateChunk4Heartbeat` performs on one chunk for one
success info: move the target node from pending to committed and, on a
move-type send, drop the sender from committed. -/
def applySuccessInfo (senderId : String) (info : ChunkSendInfo) (c : Chunk) : Chunk :=
  let c1 := { c with
              pendingDataNodes := setRemove c.pendingDataNodes info.dataNodeId
              dataNodes := setAdd c.dataNodes info.dataNodeId }
  match info.sendType with
  | SendType.move => { c1 with dataNodes := setRemove c1.dataNodes senderId }
  | SendType.copy => c1

/-- `UpdateChunk4Heartbeat`: promote confirmed pending replicas, drop
failed pending replicas, and for every invalid chunk remove the reporting
node from the committed set and push the chunk id onto the queue. -/
def updateChunk4Heartbeat (o : HeartbeatOperation) (s : MState) : MState :=
  let s1 := o.successInfos.foldl
    (fun st info =>
      match findVal info.chunkId st.chunksMap with
      | none => st
      | some _ =>
          let m := mapUpdate info.chunkId (applySuccessInfo o.dataNodeId info) st.chunksMap
          { st with chunksMap := m })
    s
  let s2 := o.failInfos.foldl
    (fun st info =>
      match findVal info.chunkId st.chunksMap with
      | none => st
      | some _ =>
          let f := fun c =>
            { c with pendingDataNodes := setRemove c.pendingDataNodes info.dataNodeId }
          { st with chunksMap := mapUpdate info.chunkId f st.chunksMap })
    s1
  o.invalidChunks.foldl
    (fun st chunkId =>
      match findVal chunkId st.chunksMap with
      | none => st
      | some _ =>
          let f := fun c => { c with dataNodes := setRemove c.dataNodes o.dataNodeId }
          { st with
            chunksMap := mapUpdate chunkId f st.chunksMap
            pendingChunkQueue := st.pendingChunkQueue ++ [chunkId] })
    s2

/-- The two degrade stages submitted by `MonitorHeartbeat`
(`common.Degrade2Waiting`, `common.Degrade2Dead`). -/
inductive Stage where
  | degrade2Waiting
  | degrade2Dead
  deriving DecidableEq, Repr

/-- `DegradeDataNode`: on the waiting stage only flip the status; on the
dead stage delete the node from the catalog and push every chunk id it
held, followed by every chunk id of its outbound transfer plan, onto
`pendingChunkQueue`. -/
def degradeDataNode (dataNodeId : String) (stage : Stage) (s : MState) : MState :=
  match findVal dataNodeId s.dataNodeMap with
  | none => s
  | some dn =>
      match stage with
      | Stage.degrade2Waiting =>
          let f := fun d => { d with status := NodeStatus.waiting }
          { s with dataNodeMap := mapUpdate dataNodeId f s.dataNodeMap }
      | Stage.degrade2Dead =>
          let q := s.pendingChunkQueue ++ dn.chunks ++
            dn.futureSendChunks.map (fun kv => kv.1.chunkId)
          { s with
            dataNodeMap := mapErase dataNodeId s.dataNodeMap
            pendingChunkQueue := q }

/-- The spec's queue-multiplicity invariant: each catalogued chunk occurs
in the queue exactly `max 0 (replicaNum − |committed| − |pending|)` times
(truncated subtraction on `Nat` is exactly this `max`). -/
def queueMultiplicityInv (replicaNum : Nat) (s : MState) : Prop :=
  ∀ kv ∈ s.chunksMap,
    s.pendingChunkQueue.count kv.1 =
      replicaNum - (kv.2.dataNodes.length + kv.2.pendingDataNodes.length)

instance (replicaNum : Nat) (s : MState) : Decidable (queueMultiplicityInv replicaNum s) :=
  List.decidableBAll _ s.chunksMap

/-- A state satisfying the queue-multiplicity invariant with
ReplicaNum = 3: one chunk, no committed replica, two pending replicas,
one queue occurrence. -/
def c1State : MState :=
  { chunksMap := [("c", { id := "c", dataNodes := [], pendingDataNodes := ["d1", "d2"] })]
    dataNodeMap := []
    pendingChunkQueue := ["c"] }

/-! ## Snapshot persistence of the chunk catalog

`Chunk.String` renders one line `id$[a b]$[c d]` per chunk and
`RestoreChunks` splits it back into the three fields.  The rendering and
the `$`/space splitting are mutually inverse on delimiter-free ids, so we
embed a line as the record of its three parsed fields.  Crucially,
`RestoreChunks` allocates `dataNodes := set.NewSet()` and
`pendingDataNodes := set.NewSet()` once, before the scan loop, and every
restored `Chunk` stores a pointer to those two set objects; after the
scan each restored chunk therefore observes the union of all lines'
replica ids.  The embedding materializes that aliasing: every entry of
the returned map carries the final accumulated sets. -/

/-- One snapshot line of the chunk section, already split at `$` and the
set brackets. -/
structure SnapLine where
  chunkId : String
  dataNodesField : List String
  pendingField : List String
  deriving DecidableEq, Repr

/-- `PersistChunks`: one line per chunk, fields in catalog order. -/
def persistChunks (chunks : List Chunk) : List SnapLine :=
  chunks.map (fun c =>
    { chunkId := c.id, dataNodesField := c.dataNodes, pendingField := c.pendingDataNodes })

/-- `RestoreChunks` with the shared accumulating sets (see the section
comment): the two sets are threaded over the whole scan and every
restored chunk ends up holding the final value of both. -/
def restoreChunks (lines : List SnapLine) : List (String × Chunk) :=
  let finalDataNodes := lines.foldl (fun acc l => l.dataNodesField.foldl setAdd acc) []
  let finalPending := lines.foldl (fun acc l => l.pendingField.foldl setAdd acc) []
  lines.map (fun l =>
    (l.chunkId,
      { id := l.chunkId, dataNodes := finalDataNodes, pendingDataNodes := finalPending }))

/-- Persisted catalog for the round-trip check: two chunks with disjoint
replica sets. -/
def c2ChunkA : Chunk := { id := "c1", dataNodes := ["d1"], pendingDataNodes := ["p1"] }

/-- Second chunk of the round-trip check. -/
def c2ChunkB : Chunk := { id := "c2", dataNodes := ["d2"], pendingDataNodes := ["p2"] }

/-! ## The placement planner (`allocateChunksDFS` / `dfs`)

The Go search mutates `currentResult`, `isStore`, `result` and `minValue`
through pointers; we thread them in the record `DfsCtx`.  The recursion
on `chunkIndex` is bounded by `chunkNum`, passed as explicit fuel (the
wrapper supplies `fuel = chunkNum`, the exact depth of the Go recursion,
so the zero-fuel arm is unreachable from `allocateChunksDFS`).  The two
`for` loops with `continue`/early `return` become folds carrying a done
flag. -/

/-- `math.MaxInt` on a 64-bit build. -/
def maxInt : Int := 9223372036854775807

/-- The mutable locals of the search: the store matrix, the per-node
lists of assigned chunk indices, the best plan found so far and its
variance value. -/
structure DfsCtx where
  isStore : List (List Bool)
  curr : List (List Nat)
  result : List Nat
  minValue : Int
  deriving DecidableEq, Repr

/-- Read `m[i][j]` (the Go code only reads in-range indices). -/
def getB (m : List (List Bool)) (i j : Nat) : Bool :=
  (m.getD i []).getD j false

/-- Write `m[i][j] = v`. -/
def setB (m : List (List Bool)) (i j : Nat) (v : Bool) : List (List Bool) :=
  m.set i ((m.getD i []).set j v)

/-- `(*currentResult)[dnIndex] = append(..., chunkIndex)`. -/
def pushCurr (st : DfsCtx) (dnIndex chunkIndex : Nat) : DfsCtx :=
  { st with curr := st.curr.set dnIndex ((st.curr.getD dnIndex []) ++ [chunkIndex]) }

/-- Drop the last element of `(*currentResult)[dnIndex]` (the backtrack
step after the loop). -/
def popCurr (st : DfsCtx) (dnIndex : Nat) : DfsCtx :=
  { st with curr := st.curr.set dnIndex ((st.curr.getD dnIndex []).dropLast) }

/-- The leaf's variance value: `Σ (len(currentResult[i]) − avg)²` over
all data nodes (exact over `Int`; the Go float round-trip is exact at
these magnitudes). -/
def leafValue (dataNodeNum : Nat) (avg : Int) (curr : List (List Nat)) : Int :=
  (List.range dataNodeNum).foldl
    (fun acc i =>
      acc + (((curr.getD i []).length : Int) - avg) * (((curr.getD i []).length : Int) - avg))
    0

/-- Copy the leaf's assignment into `result`:
`result[currentResult[j][k]] = j`. -/
def writeResult (dataNodeNum : Nat) (curr : List (List Nat)) (result : List Nat) : List Nat :=
  (List.range dataNodeNum).foldl
    (fun res j => (curr.getD j []).foldl (fun r k => r.set k j) res)
    result

/-- The `chunkIndex == chunkNum` arm of `dfs`: evaluate the variance,
record the plan if it improves on `minValue`, and report whether the
early-termination bound was reached. -/
def dfsLeaf (dataNodeNum : Nat) (avg best : Int) (st : DfsCtx) : DfsCtx × Bool :=
  let currentValue := leafValue dataNodeNum avg st.curr
  let st' :=
    if currentValue < st.minValue then
      { st with minValue := currentValue, result := writeResult dataNodeNum st.curr st.result }
    else st
  (st', currentValue = best)

/-- `dfs`: assign `chunkIndex` to `dnIndex`, then try every node for the
next chunk, skipping when `isStore[chunkIndex][dnIndex]` holds, marking
the cell transiently and backtracking, with the Go early `return` on a
bound-reaching plan (isBest skips the backtrack pop, as in the source). -/
def dfs (chunkNum dataNodeNum : Nat) (avg best : Int) :
    Nat → Nat → Nat → DfsCtx → DfsCtx × Bool
  | fuel, chunkIndex, dnIndex, st =>
    if chunkIndex = chunkNum then dfsLeaf dataNodeNum avg best st
    else
      match fuel with
      | 0 => (st, false)
      | fuel' + 1 =>
          let st1 := pushCurr st dnIndex chunkIndex
          let r := (List.range dataNodeNum).foldl
            (fun acc i =>
              if acc.2 then acc
              else if getB acc.1.isStore chunkIndex dnIndex then acc
              else
                let stA := { acc.1 with isStore := setB acc.1.isStore chunkIndex dnIndex true }
                let r2 := dfs chunkNum dataNodeNum avg best fuel' (chunkIndex + 1) i stA
                ({ r2.1 with isStore := setB r2.1.isStore chunkIndex dnIndex false }, r2.2))
            (st1, false)
          if r.2 then r else (popCurr r.1 dnIndex, false)

/-- `calBestVariance`: the search's early-termination bound. -/
def calBestVariance (chunkNum dataNodeNum : Nat) (avg : Int) : Int :=
  if avg * (dataNodeNum : Int) = (chunkNum : Int) then 0
  else (chunkNum : Int) - (avg - 1) * (dataNodeNum : Int)

/-- The per-node target the Go code computes:
`int(math.Ceil(float64(chunkNum / dataNodeNum)))`.  The division inside
the conversion is Go integer division, so the ceiling is applied to an
already-truncated integer and the result is `⌊chunkNum / dataNodeNum⌋`.
Calling it with `dataNodeNum = 0` panics in Go (integer division by
zero); the wrapper below models that arm as `none`. -/
def allocAvg (chunkNum dataNodeNum : Nat) : Nat :=
  chunkNum / dataNodeNum

/-- The top loop of `allocateChunksDFS`: try each node as the first
chunk's assignment, stopping at the first bound-reaching plan. -/
def dfsTop (chunkNum dataNodeNum : Nat) (avg best : Int) (st0 : DfsCtx) : DfsCtx :=
  ((List.range dataNodeNum).foldl
    (fun acc i =>
      if acc.2 then acc
      else dfs chunkNum dataNodeNum avg best chunkNum 0 i acc.1)
    (st0, false)).1

/-- `allocateChunksDFS`: `none` embeds the Go run-time panic on
`dataNodeNum = 0` (integer division by zero in the `avg` computation);
otherwise run the pruned search and return the `result` vector, which
starts as `make([]int, chunkNum)` — all zeros — and is only overwritten
when some complete assignment is reached. -/
def allocateChunksDFS (chunkNum dataNodeNum : Nat) (isStore : List (List Bool)) :
    Option (List Nat) :=
  if dataNodeNum = 0 then none
  else
    let avg : Int := (allocAvg chunkNum dataNodeNum : Nat)
    let best := calBestVariance chunkNum dataNodeNum avg
    let st0 : DfsCtx :=
      { isStore := isStore, curr := List.replicate dataNodeNum []
        result := List.replicate chunkNum 0, minValue := maxInt }
    some (dfsTop chunkNum dataNodeNum avg best st0).result

/-- Modelled from the spec: "Let avg = ⌈C/N⌉" (§4.4).  Stated for
comparison with the `allocAvg` the code computes. -/
def specAvg (chunkNum dataNodeNum : Nat) : Nat :=
  (chunkNum + dataNodeNum - 1) / dataNodeNum

/-- Modelled from the spec: "The best achievable variance is 0 when
avg·N == C, else C − (avg−1)·N", with the spec's ceiling average. -/
def specBestVariance (chunkNum dataNodeNum : Nat) : Int :=
  if (specAvg chunkNum dataNodeNum : Int) * (dataNodeNum : Int) = (chunkNum : Int) then 0
  else (chunkNum : Int) - ((specAvg chunkNum dataNodeNum : Int) - 1) * (dataNodeNum : Int)

/-! ## The directory tree (`namespace.go`)

`FileNode` is embedded as the inductive `FNode`; the Go
`ChildNodes map[string]*FileNode` keyed by `FileName` becomes the child
list searched by the `name` field (all tree operations of the source
maintain key = `FileName`).  Paths arrive pre-split into segments (the
source trims `/` and splits; the empty segment list is the root path,
matching the `path == root.FileName` branch).  Wall-clock reads
(`time.Now()`) are passed in as the explicit `now` argument. -/

/-- `deleteFilePrefix` of `namespace.go`. -/
def deleteFilePrefix : String := "delete"

/-- `FileNode`: id, name, file flag, soft-delete flag and timestamp,
size, chunk-id list, children. -/
inductive FNode where
  | mk (id : Nat) (name : String) (isFile : Bool) (isDel : Bool) (delTime : Option Nat)
      (size : Int) (chunks : List String) (children : List FNode)

/-- The node's stable id. -/
def FNode.id : FNode → Nat
  | .mk i _ _ _ _ _ _ _ => i

/-- The node's `FileName`. -/
def FNode.name : FNode → String
  | .mk _ n _ _ _ _ _ _ => n

/-- The node's soft-delete flag. -/
def FNode.isDel : FNode → Bool
  | .mk _ _ _ d _ _ _ _ => d

/-- The node's child list. -/
def FNode.children : FNode → List FNode
  | .mk _ _ _ _ _ _ _ c => c

/-- Replace the child list, keeping every other field. -/
def FNode.setChildren : FNode → List FNode → FNode
  | .mk i n f d t s c _, l => .mk i n f d t s c l

/-- The in-place mutation `RemoveFileNode` applies to the removed node:
prefix the name with `delete`, set the flag, stamp the time. -/
def FNode.markDeleted (now : Nat) : FNode → FNode
  | .mk i n f _ _ s c l => .mk i (deleteFilePrefix ++ n) f true (some now) s c l

/-- Child-map lookup by `FileName` (Go `node.ChildNodes[name]`). -/
def findChild (x : String) : List FNode → Option FNode
  | [] => none
  | c :: rest => if c.name = x then some c else findChild x rest

/-- Go `delete(node.ChildNodes, x)`. -/
def eraseChild (x : String) : List FNode → List FNode
  | [] => []
  | c :: rest => if c.name = x then eraseChild x rest else c :: eraseChild x rest

/-- Go `node.ChildNodes[x] = c2` when the key `x` is already bound:
replace the bound node. -/
def replaceChild (x : String) (c2 : FNode) : List FNode → List FNode
  | [] => []
  | c :: rest => if c.name = x then c2 :: replaceChild x c2 rest else c :: replaceChild x c2 rest

/-- Path resolution of `getAndLockByPath` (segment-by-segment child
lookup; the lock bookkeeping is modelled separately below). -/
def resolve : List String → FNode → Option FNode
  | [], t => some t
  | n :: rest, t =>
      match findChild n t.children with
      | none => none
      | some c => resolve rest c

/-- `RemoveFileNode` on a pre-split path: resolve the node, delete its
old key from the parent, re-insert it under the `delete`-prefixed key
(overwriting any existing binding of that key, as a Go map write does),
set the flag and the timestamp.  The empty path names the root, whose
nil parent the Go code would dereference and crash on; that arm is
`none`. -/
def removeFileNode (now : Nat) : List String → FNode → Option FNode
  | [], _ => none
  | [x], t =>
      match findChild x t.children with
      | none => none
      | some c =>
          let c2 := FNode.markDeleted now c
          some (t.setChildren (eraseChild c2.name (eraseChild c.name t.children) ++ [c2]))
  | n :: m :: rest, t =>
      match findChild n t.children with
      | none => none
      | some c =>
          match removeFileNode now (m :: rest) c with
          | none => none
          | some c2 => some (t.setChildren (replaceChild n c2 t.children))

/-- `RemoveFileNode` as a state transformer: an error leaves the tree
unchanged. -/
def applyRemoveFileNode (now : Nat) (p : List String) (t : FNode) : FNode :=
  (removeFileNode now p t).getD t

/-- `ListFileNode`: resolve the path and return every entry of the
node's child map (the source iterates `ChildNodes` with no filtering). -/
def listFileNode (segs : List String) (t : FNode) : Except String (List FNode) :=
  match resolve segs t with
  | none => Except.error "path not exist"
  | some n => Except.ok n.children

/-- Lock bookkeeping of `getAndLockByPath` along one path: every visited
ancestor is read-locked (entry `(id, false)`) and pushed, the terminal
node gets a write lock (`(id, true)`) when `isRead` is false.  On a
missing segment the source calls `unlockAllMutex`, so the held-lock list
of a failed call is empty. -/
def lockPathGo (isRead : Bool) : FNode → List String → List (Nat × Bool) →
    Option FNode × List (Nat × Bool) × Bool
  | cur, [], acc => (some cur, acc ++ [(cur.id, !isRead)], true)
  | cur, n :: rest, acc =>
      match findChild n cur.children with
      | none => (none, [], false)
      | some c => lockPathGo isRead c rest (acc ++ [(cur.id, false)])

/-- `getAndLockByPath`: the root path locks only the root; otherwise walk
the segments.  Returns (resolved node, locks held at return, success). -/
def getAndLockByPath (root : FNode) (segs : List String) (isRead : Bool) :
    Option FNode × List (Nat × Bool) × Bool :=
  match segs with
  | [] => (some root, [(root.id, !isRead)], true)
  | _ => lockPathGo isRead root segs []

/-- `MoveFileNode`, tracking which per-node locks are still held when the
function returns.  The source acquires both paths' lock stacks first and
only then checks the two existence flags, registering the deferred
`unlockAllMutex(stack)` after the first check and the deferred
`unlockAllMutex(parentStack)` after the second; so on the `!isExist`
return no defer has been registered yet and the target path's locks stay
held. -/
def moveFileNodeHeld (root : FNode) (currentPath targetPath : List String) :
    Option FNode × List (Nat × Bool) :=
  let g1 := getAndLockByPath root currentPath false
  let g2 := getAndLockByPath root targetPath false
  if g1.2.2 = false then (none, g1.2.1 ++ g2.2.1)
  else if g2.2.2 = false then (none, g2.2.1)
  else
    match g1.1, g2.1 with
    | some n1, some n2 =>
        if (findChild n1.name n2.children).isSome then (none, [])
        else (some n1, [])
    | _, _ => (none, [])

/-- `initChunks`: number of chunks is the ceiling of `size / ChunkSize`
(the Go float division and ceiling are exact at the magnitudes in use);
the i-th id is `id + strconv.Itoa(i)` — direct concatenation. -/
def initChunks (chunkSize size : Nat) (id : String) : List String :=
  (List.range ((size + chunkSize - 1) / chunkSize)).map (fun i => id ++ toString i)

/-- Modelled from the spec: the chunk-id shape `<fileNodeId>_<index>`
(§3 and the `Chunk` doc comment of the source), for comparison with
`initChunks`. -/
def specChunkIds (chunkSize size : Nat) (id : String) : List String :=
  (List.range ((size + chunkSize - 1) / chunkSize)).map (fun i => id ++ "_" ++ toString i)

/-- Heartbeat state for the idempotence counterexample: one chunk held by
`d1`, empty queue. -/
def c4State : MState :=
  { chunksMap := [("c1", { id := "c1", dataNodes := ["d1"], pendingDataNodes := [] })]
    dataNodeMap := []
    pendingChunkQueue := [] }

/-- Heartbeat command for the idempotence counterexample: `d1` reports
chunk `c1` invalid. -/
def c4Op : HeartbeatOperation :=
  { id := "op1", dataNodeId := "d1", successInfos := [], failInfos := []
    invalidChunks := ["c1"] }

/-- Data node used to witness the degrade semantics: two stored chunks
and one outbound transfer-plan entry. -/
def c8Node : DataNode :=
  { id := "d1", status := NodeStatus.alive, address := "addr1", chunks := ["c1", "c2"]
    ioLoad := 3
    futureSendChunks := [({ chunkId := "c3", dataNodeId := "d2", sendType := SendType.copy },
      SendState.waitToInform)]
    heartbeatTime := 0 }

/-- State holding `c8Node` and a non-empty queue. -/
def c8State : MState :=
  { chunksMap := []
    dataNodeMap := [("d1", c8Node)]
    pendingChunkQueue := ["q0"] }

/-- Tree for the lock-leak evaluation: root (id 0) with a single child
`b` (id 1); the path `a` does not exist. -/
def demoLockRoot : FNode :=
  FNode.mk 0 "" false false none 0 [] [FNode.mk 1 "b" false false none 0 [] []]

/-- Tree for the listing witness: root (id 0) with one file child `a`. -/
def c10Root : FNode :=
  FNode.mk 0 "" false false none 0 [] [FNode.mk 1 "a" true false none 10 ["x0"] []]

/-- `c10Root` after `RemoveFileNode` of `/a` at time 7. -/
def c10RootAfter : FNode :=
  FNode.mk 0 "" false false none 0 []
    [FNode.mk 1 (deleteFilePrefix ++ "a") true true (some 7) 10 ["x0"] []]

/-! ## Helper lemmas on the association-list embedding of Go maps -/

theorem findVal_mapUpdate_self (key : String) (f : β → β) :
    ∀ m : List (String × β), findVal key (mapUpdate key f m) = (findVal key m).map f := by
  intro m
  induction m with
  | nil => rfl
  | cons kv rest ih =>
      obtain ⟨k, v⟩ := kv
      by_cases h : k = key
      · subst h
        simp [mapUpdate, findVal]
      · simpa [mapUpdate, findVal, h] using ih

theorem findVal_mapUpdate_isSome (key other : String) (f : β → β) :
    ∀ m : List (String × β),
      (findVal key (mapUpdate other f m)).isSome = (findVal key m).isSome := by
  intro m
  induction m with
  | nil => rfl
  | cons kv rest ih =>
      obtain ⟨k, v⟩ := kv
      by_cases h : k = other
      · subst h
        by_cases h2 : k = key
        · subst h2
          simp [mapUpdate, findVal]
        · simpa [mapUpdate, findVal, h2] using ih
      · by_cases h2 : k = key
        · subst h2
          simp [mapUpdate, findVal, h]
        · simpa [mapUpdate, findVal, h, h2] using ih

theorem mapErase_mapUpdate (key : String) (f : β → β) :
    ∀ m : List (String × β), mapErase key (mapUpdate key f m) = mapErase key m := by
  intro m
  induction m with
  | nil => rfl
  | cons kv rest ih =>
      obtain ⟨k, v⟩ := kv
      by_cases h : k = key
      · subst h
        simpa [mapUpdate, mapErase] using ih
      · simpa [mapUpdate, mapErase, h] using ih

theorem findVal_mapErase_self (key : String) :
    ∀ m : List (String × β), findVal key (mapErase key m) = none := by
  intro m
  induction m with
  | nil => rfl
  | cons kv rest ih =>
      obtain ⟨k, v⟩ := kv
      by_cases h : k = key
      · subst h
        simpa [mapErase] using ih
      · simpa [mapErase, findVal, h] using ih

/-! ## C1: queue multiplicity under `BatchClearPendingDataNodes` -/

/-- Claim C1 counterexample: the queue-multiplicity invariant (with
ReplicaNum = 3) holds in `c1State` — the chunk misses one replica and is
queued once — but after `BatchClearPendingDataNodes` abandons its two
pending replicas the id is queued twice while three occurrences would be
required, so the invariant is not preserved and clearing does not
re-enqueue once per abandoned pending replica. -/
theorem batchClearPendingDataNodes_breaks_queueMultiplicity :
    queueMultiplicityInv 3 c1State ∧
      ¬ queueMultiplicityInv 3 (batchClearPendingDataNodes ["c"] c1State) := by
  decide

/-- Claim C1 (amended): `BatchClearPendingDataNodes` pushes each listed
chunk id onto the under-replication queue exactly once per occurrence in
the input slice whenever the chunk is present in the catalog — and not
once per abandoned pending replica — so the resulting queue is the old
queue extended by the present ids in slice order. -/
theorem batchClearPendingDataNodes_enqueues_once_each (chunkIds : List String) (s : MState) :
    (batchClearPendingDataNodes chunkIds s).pendingChunkQueue =
      s.pendingChunkQueue ++
        chunkIds.filter (fun i => (findVal i s.chunksMap).isSome) := by
  induction chunkIds generalizing s with
  | nil => simp [batchClearPendingDataNodes]
  | cons a rest ih =>
      have hfold : batchClearPendingDataNodes (a :: rest) s
          = batchClearPendingDataNodes rest (clearPendingStep s a) := rfl
      rw [hfold, ih]
      cases h : findVal a s.chunksMap with
      | none => simp [clearPendingStep, h]
      | some c =>
          have hq : (clearPendingStep s a).pendingChunkQueue
              = s.pendingChunkQueue ++ [a] := by
            simp [clearPendingStep, h]
          have hm : ∀ i ∈ rest,
              ((fun i => (findVal i (clearPendingStep s a).chunksMap).isSome) i)
                = ((fun i => (findVal i s.chunksMap).isSome) i) := by
            intro i _
            simp [clearPendingStep, h, findVal_mapUpdate_isSome]
          rw [hq, List.filter_congr hm]
          simp [h]

/-! ## C2: snapshot round-trip of the chunk catalog -/

/-- Claim C2 evaluation at the failing input: persisting the two-chunk
catalog `[c2ChunkA, c2ChunkB]` and restoring it yields a catalog in
which both chunks hold the accumulated union sets `[d1, d2]` and
`[p1, p2]` (all restored chunks alias the two sets allocated before the
scan loop), which is not deep-equal to the persisted catalog. -/
theorem restoreChunks_shares_accumulated_sets :
    restoreChunks (persistChunks [c2ChunkA, c2ChunkB]) =
      [("c1", { id := "c1", dataNodes := ["d1", "d2"], pendingDataNodes := ["p1", "p2"] }),
        ("c2", { id := "c2", dataNodes := ["d1", "d2"], pendingDataNodes := ["p1", "p2"] })] ∧
      restoreChunks (persistChunks [c2ChunkA, c2ChunkB]) ≠
        [("c1", c2ChunkA), ("c2", c2ChunkB)] := by
  decide

/-! ## C3: lock release on the error paths of `MoveFileNode` -/

/-- Claim C3 evaluation at the failing input: moving `/a` to `/b` in a
tree where `/a` is missing and `/b` exists returns the not-exist error
while the read lock on the root (id 0) and the write lock on `/b`
(id 1), acquired while resolving the target path, are still held — the
lock stack is not empty on this error path. -/
theorem moveFileNode_leaks_target_locks :
    (moveFileNodeHeld demoLockRoot ["a"] ["b"]).1 = none ∧
      (moveFileNodeHeld demoLockRoot ["a"] ["b"]).2 = [(0, false), (1, true)] ∧
      (moveFileNodeHeld demoLockRoot ["a"] ["b"]).2 ≠ [] := by
  refine ⟨rfl, by decide, by decide⟩

/-! ## C4: idempotence of command application -/

/-- Claim C4 counterexample: the mutating heartbeat command `c4Op`
(node `d1` reports chunk `c1` invalid) applied twice to `c4State` does
not produce the same post-state as applying it once — each application
pushes `c1` onto the under-replication queue again, and no handler
dedupes on the command id. -/
theorem updateChunk4Heartbeat_not_idempotent :
    updateChunk4Heartbeat c4Op (updateChunk4Heartbeat c4Op c4State) ≠
      updateChunk4Heartbeat c4Op c4State := by
  decide

/-! ## C5, C6, C7: the placement planner -/

/-- Claim C5 evaluation at the failing input: with one chunk and one data
node that already stores it (`isStore = [[true]]`), no complete
assignment satisfying the constraint exists, the search never reaches a
leaf, and `allocateChunksDFS` returns the zero-initialized plan `[0]`
whose single entry violates `¬ isStore[0][plan[0]]`. -/
theorem allocateChunksDFS_default_plan_violates_constraint :
    allocateChunksDFS 1 1 [[true]] = some [0] ∧ getB [[true]] 0 0 = true := by
  decide

/-- Claim C6 evaluation at the failing input C = 5, N = 2: the code's
per-node target `allocAvg` is the floor 2 (the integer division happens
before `math.Ceil`), not the spec's ceiling 3, and consequently its
early-termination bound is `calBestVariance 5 2 2 = 3` where the spec's
formula with the ceiling average gives 1. -/
theorem allocAvg_floor_not_ceil :
    allocAvg 5 2 = 2 ∧ specAvg 5 2 = 3 ∧ allocAvg 5 2 ≠ specAvg 5 2 ∧
      calBestVariance 5 2 ((allocAvg 5 2 : Nat) : Int) = 3 ∧
      specBestVariance 5 2 = 1 ∧
      calBestVariance 5 2 ((allocAvg 5 2 : Nat) : Int) ≠ specBestVariance 5 2 := by
  decide

/-- Claim C7: with zero alive data nodes the planner does not return
empty plans — the `avg` computation divides by `dataNodeNum = 0`, a Go
integer division by zero that panics at run time (embedded as `none`),
for every batch of chunks. -/
theorem allocateChunksDFS_zero_nodes_panics (chunkNum : Nat) (isStore : List (List Bool)) :
    allocateChunksDFS chunkNum 0 isStore = none := by
  simp [allocateChunksDFS]

/-! ## Helper lemmas on the directory tree -/

@[simp]
theorem FNode.name_setChildren (t : FNode) (l : List FNode) :
    (t.setChildren l).name = t.name := by
  cases t
  rfl

@[simp]
theorem FNode.children_setChildren (t : FNode) (l : List FNode) :
    (t.setChildren l).children = l := by
  cases t
  rfl

@[simp]
theorem FNode.name_markDeleted (now : Nat) (c : FNode) :
    (FNode.markDeleted now c).name = deleteFilePrefix ++ c.name := by
  cases c
  rfl

@[simp]
theorem FNode.isDel_markDeleted (now : Nat) (c : FNode) :
    (FNode.markDeleted now c).isDel = true := by
  cases c
  rfl

theorem deleteFilePrefix_append_ne (s : String) : deleteFilePrefix ++ s ≠ s := by
  intro h
  have h2 := congrArg String.length h
  rw [String.length_append] at h2
  have h3 : deleteFilePrefix.length = 6 := rfl
  omega

theorem findChild_some_name (x : String) :
    ∀ (l : List FNode) (c : FNode), findChild x l = some c → c.name = x := by
  intro l
  induction l with
  | nil => intro c h; cases h
  | cons a rest ih =>
      intro c h
      by_cases ha : a.name = x
      · simp [findChild, ha] at h
        rw [← h, ha]
      · simp [findChild, ha] at h
        exact ih c h

theorem findChild_isSome_of_some (x : String) (l : List FNode) (c : FNode)
    (h : findChild x l = some c) : (findChild x l).isSome := by
  simp [h]

theorem findChild_eq_none_of_forall (x : String) :
    ∀ l : List FNode, (∀ c ∈ l, c.name ≠ x) → findChild x l = none := by
  intro l
  induction l with
  | nil => intro _; rfl
  | cons a rest ih =>
      intro hall
      have ha : a.name ≠ x := hall a (List.mem_cons_self a rest)
      simp [findChild, ha]
      exact ih (fun c hc => hall c (List.mem_cons_of_mem a hc))

theorem mem_of_mem_eraseChild (y : String) :
    ∀ (l : List FNode) (c : FNode), c ∈ eraseChild y l → c ∈ l := by
  intro l
  induction l with
  | nil => intro c h; cases h
  | cons a rest ih =>
      intro c h
      by_cases ha : a.name = y
      · simp [eraseChild, ha] at h
        exact List.mem_cons_of_mem a (ih c h)
      · simp [eraseChild, ha] at h
        rcases h with h | h
        · exact h ▸ List.mem_cons_self a rest
        · exact List.mem_cons_of_mem a (ih c h)

theorem name_ne_of_mem_eraseChild (x : String) :
    ∀ (l : List FNode) (c : FNode), c ∈ eraseChild x l → c.name ≠ x := by
  intro l
  induction l with
  | nil => intro c h; cases h
  | cons a rest ih =>
      intro c h
      by_cases ha : a.name = x
      · simp [eraseChild, ha] at h
        exact ih c h
      · simp [eraseChild, ha] at h
        rcases h with h | h
        · rw [h]; exact ha
        · exact ih c h

theorem findChild_append_none (x : String) (l1 l2 : List FNode)
    (h : findChild x l1 = none) : findChild x (l1 ++ l2) = findChild x l2 := by
  induction l1 with
  | nil => rfl
  | cons a rest ih =>
      by_cases ha : a.name = x
      · simp [findChild, ha] at h
      · simp [findChild, ha] at h ⊢
        exact ih h

theorem findChild_replaceChild (n : String) (c2 : FNode) (h2 : c2.name = n) :
    ∀ l : List FNode, (findChild n l).isSome →
      findChild n (replaceChild n c2 l) = some c2 := by
  intro l
  induction l with
  | nil => intro h; simp [findChild] at h
  | cons a rest ih =>
      intro hs
      by_cases ha : a.name = n
      · simp [replaceChild, findChild, ha, h2]
      · simp [replaceChild, findChild, ha] at hs ⊢
        exact ih hs

/-- Unfolding of `removeFileNode` on paths with at least two segments,
stated without committing to the shape of the tail. -/
theorem removeFileNode_cons (now : Nat) (n : String) (q : List String) (hq : q ≠ [])
    (t : FNode) :
    removeFileNode now (n :: q) t =
      match findChild n t.children with
      | none => none
      | some c =>
          match removeFileNode now q c with
          | none => none
          | some c2 => some (t.setChildren (replaceChild n c2 t.children)) := by
  cases q with
  | nil => exact absurd rfl hq
  | cons m rest => rfl

theorem removeFileNode_name (now : Nat) (p : List String) (t t' : FNode)
    (h : removeFileNode now p t = some t') : t'.name = t.name := by
  match p with
  | [] => simp [removeFileNode] at h
  | [x] =>
      cases hf : findChild x t.children with
      | none => simp [removeFileNode, hf] at h
      | some c =>
          simp [removeFileNode, hf] at h
          rw [← h]
          simp
  | n :: m :: rest =>
      cases hf : findChild n t.children with
      | none => simp [removeFileNode, hf] at h
      | some c =>
          cases hr : removeFileNode now (m :: rest) c with
          | none => simp [removeFileNode, hf, hr] at h
          | some c2 =>
              simp [removeFileNode, hf, hr] at h
              rw [← h]
              simp

theorem removeFileNode_none_congr (now now' : Nat) :
    ∀ (p : List String) (t : FNode),
      removeFileNode now p t = none → removeFileNode now' p t = none := by
  intro p
  induction p with
  | nil => intro t _; rfl
  | cons n rest ih =>
      intro t h
      cases rest with
      | nil =>
          cases hf : findChild n t.children with
          | none => simp [removeFileNode, hf]
          | some c => simp [removeFileNode, hf] at h
      | cons m rest' =>
          cases hf : findChild n t.children with
          | none => simp [removeFileNode, hf]
          | some c =>
              cases hr : removeFileNode now (m :: rest') c with
              | none => simp [removeFileNode, hf, ih c hr]
              | some c2 => simp [removeFileNode, hf, hr] at h

theorem removeFileNode_twice_none (now now' : Nat) :
    ∀ (p : List String) (t t' : FNode),
      removeFileNode now p t = some t' → removeFileNode now' p t' = none := by
  intro p
  induction p with
  | nil => intro t t' h; cases h
  | cons n rest ih =>
      intro t t' h
      cases rest with
      | nil =>
          cases hf : findChild n t.children with
          | none => simp [removeFileNode, hf] at h
          | some c =>
              simp [removeFileNode, hf] at h
              have hc : c.name = n := findChild_some_name n t.children c hf
              have hE : findChild n
                  (eraseChild (deleteFilePrefix ++ c.name)
                    (eraseChild c.name t.children)) = none := by
                apply findChild_eq_none_of_forall
                intro d hd
                have hd2 := mem_of_mem_eraseChild (deleteFilePrefix ++ c.name) _ d hd
                have hd3 := name_ne_of_mem_eraseChild c.name t.children d hd2
                rw [hc] at hd3
                exact hd3
              have hne : ¬ ((deleteFilePrefix ++ c.name : String) = n) := by
                rw [hc]
                exact deleteFilePrefix_append_ne n
              have hfind : findChild n t'.children = none := by
                rw [← h, FNode.children_setChildren,
                  findChild_append_none n _ _ hE]
                simp [findChild, hne]
              simp [removeFileNode, hfind]
      | cons m rest' =>
          cases hf : findChild n t.children with
          | none => simp [removeFileNode, hf] at h
          | some c =>
              cases hr : removeFileNode now (m :: rest') c with
              | none => simp [removeFileNode, hf, hr] at h
              | some c2 =>
                  simp [removeFileNode, hf, hr] at h
                  have hc : c.name = n := findChild_some_name n t.children c hf
                  have hc2 : c2.name = n := by
                    rw [removeFileNode_name now (m :: rest') c c2 hr]
                    exact hc
                  have hfind : findChild n t'.children = some c2 := by
                    rw [← h, FNode.children_setChildren]
                    exact findChild_replaceChild n c2 hc2 t.children (by simp [hf])
                  simp [removeFileNode, hfind, ih c c2 hr]

/-- Claim C4 (amended): applying `RemoveFileNode` twice to the same path
produces the same post-state as applying it once — the second
application fails path resolution (the node now lives under its
`delete`-prefixed key) and leaves the tree unchanged; this holds for any
pair of deletion timestamps.  (The unrestricted claim fails: heartbeat
commands that push onto the under-replication queue are not idempotent,
see the counterexample.) -/
theorem removeFileNode_idempotent (now1 now2 : Nat) (p : List String) (t : FNode) :
    applyRemoveFileNode now2 p (applyRemoveFileNode now1 p t) =
      applyRemoveFileNode now1 p t := by
  unfold applyRemoveFileNode
  cases h : removeFileNode now1 p t with
  | none => simp [removeFileNode_none_congr now1 now2 p t h]
  | some t' => simp [removeFileNode_twice_none now1 now2 p t t' h]

/-! ## C10: listing returns the whole child map, soft-deleted nodes
included -/

theorem remove_then_resolve (now : Nat) :
    ∀ (segs : List String) (x : String) (t t' : FNode),
      removeFileNode now (segs ++ [x]) t = some t' →
      ∃ parent, resolve segs t' = some parent ∧
        ∃ c ∈ parent.children, c.name = deleteFilePrefix ++ x ∧ c.isDel = true := by
  intro segs
  induction segs with
  | nil =>
      intro x t t' h
      simp only [List.nil_append] at h
      cases hf : findChild x t.children with
      | none => simp [removeFileNode, hf] at h
      | some c =>
          simp [removeFileNode, hf] at h
          have hc : c.name = x := findChild_some_name x t.children c hf
          refine ⟨t', rfl, FNode.markDeleted now c, ?_, ?_, ?_⟩
          · rw [← h, FNode.children_setChildren]
            exact List.mem_append_right _ (List.mem_singleton.mpr rfl)
          · simp [hc]
          · simp
  | cons s segs' ih =>
      intro x t t' h
      have hq : segs' ++ [x] ≠ [] := by simp
      rw [List.cons_append] at h
      rw [removeFileNode_cons now s (segs' ++ [x]) hq t] at h
      cases hf : findChild s t.children with
      | none => simp [hf] at h
      | some c =>
          cases hr : removeFileNode now (segs' ++ [x]) c with
          | none => simp [hf, hr] at h
          | some c2 =>
              simp [hf, hr] at h
              have hc : c.name = s := findChild_some_name s t.children c hf
              have hc2 : c2.name = s := by
                rw [removeFileNode_name now (segs' ++ [x]) c c2 hr]
                exact hc
              obtain ⟨parent, hres, hcmem⟩ := ih x c c2 hr
              have hfind : findChild s t'.children = some c2 := by
                rw [← h, FNode.children_setChildren]
                exact findChild_replaceChild s c2 hc2 t.children (by simp [hf])
              exact ⟨parent, by simp [resolve, hfind, hres], hcmem⟩

/-- Claim C10: after a successful `RemoveFileNode` of `segs ++ [x]`,
listing the parent directory `segs` returns every entry of its child
map — `ListFileNode` applies no deletion filter — and among the returned
children is the soft-deleted node, addressable under its
`delete`-prefixed name with the deletion flag set. -/
theorem listFileNode_includes_deleted (now : Nat) (segs : List String) (x : String)
    (t t' : FNode) (h : removeFileNode now (segs ++ [x]) t = some t') :
    ∃ parent, resolve segs t' = some parent ∧
      listFileNode segs t' = Except.ok parent.children ∧
      ∃ c ∈ parent.children, c.name = deleteFilePrefix ++ x ∧ c.isDel = true := by
  obtain ⟨parent, hres, hcmem⟩ := remove_then_resolve now segs x t t' h
  exact ⟨parent, hres, by simp [listFileNode, hres], hcmem⟩

/-- Witness for C10: removing `/a` from the concrete tree `c10Root` at
time 7 succeeds, and listing the root of the resulting tree returns its
full child map, containing the node renamed to `deletea` with the
deletion flag set. -/
theorem listFileNode_includes_deleted_witness :
    removeFileNode 7 ["a"] c10Root = some c10RootAfter ∧
      ∃ parent, resolve [] c10RootAfter = some parent ∧
        listFileNode [] c10RootAfter = Except.ok parent.children ∧
        ∃ c ∈ parent.children, c.name = deleteFilePrefix ++ "a" ∧ c.isDel = true :=
  ⟨rfl, listFileNode_includes_deleted 7 [] "a" c10Root c10RootAfter rfl⟩

/-! ## C8: `DegradeDataNode` effects and frame -/

/-- Claim C8: for a node present in the catalog, degrading to Waiting
rebinds the node's id to the same record with only the status flipped,
leaves every other catalog entry, the chunk catalog and the queue
unchanged; degrading to Dead removes exactly this node's binding and
appends to the under-replication queue every chunk id of its stored set
followed by every chunk id of its outbound transfer plan, leaving the
chunk catalog unchanged. -/
theorem degradeDataNode_effects (s : MState) (nid : String) (dn : DataNode)
    (h : findVal nid s.dataNodeMap = some dn) :
    (findVal nid (degradeDataNode nid Stage.degrade2Waiting s).dataNodeMap
        = some { dn with status := NodeStatus.waiting }
      ∧ mapErase nid (degradeDataNode nid Stage.degrade2Waiting s).dataNodeMap
          = mapErase nid s.dataNodeMap
      ∧ (degradeDataNode nid Stage.degrade2Waiting s).chunksMap = s.chunksMap
      ∧ (degradeDataNode nid Stage.degrade2Waiting s).pendingChunkQueue
          = s.pendingChunkQueue)
    ∧ ((degradeDataNode nid Stage.degrade2Dead s).dataNodeMap
          = mapErase nid s.dataNodeMap
      ∧ (degradeDataNode nid Stage.degrade2Dead s).chunksMap = s.chunksMap
      ∧ (degradeDataNode nid Stage.degrade2Dead s).pendingChunkQueue
          = s.pendingChunkQueue ++ dn.chunks ++
              dn.futureSendChunks.map (fun kv => kv.1.chunkId)) := by
  refine ⟨⟨?_, ?_, ?_, ?_⟩, ?_, ?_, ?_⟩
  · simp [degradeDataNode, h, findVal_mapUpdate_self]
  · simp [degradeDataNode, h, mapErase_mapUpdate]
  · simp [degradeDataNode, h]
  · simp [degradeDataNode, h]
  · simp [degradeDataNode, h]
  · simp [degradeDataNode, h]
  · simp [degradeDataNode, h]

/-- Witness for C8: the concrete node `d1` of `c8State` is present, and
degrading it to Dead appends its two stored chunk ids and the transfer
plan's chunk id to the queue. -/
theorem degradeDataNode_effects_witness :
    findVal "d1" c8State.dataNodeMap = some c8Node ∧
      (degradeDataNode "d1" Stage.degrade2Dead c8State).pendingChunkQueue
        = c8State.pendingChunkQueue ++ c8Node.chunks ++
            c8Node.futureSendChunks.map (fun kv => kv.1.chunkId) :=
  ⟨rfl, (degradeDataNode_effects c8State "d1" c8Node rfl).2.2.2⟩

/-- Claim C9 evaluation at the failing input (ChunkSize 64, size 1,
file-node id `f`): `initChunks` produces one chunk id `f0` — index
appended directly with no `_` separator — whereas the documented shape
`<fileNodeId>_<index>` would give `f_0`. -/
theorem initChunks_missing_separator :
    initChunks 64 1 "f" = ["f0"] ∧ specChunkIds 64 1 "f" = ["f_0"] ∧
      initChunks 64 1 "f" ≠ specChunkIds 64 1 "f" ∧
      (initChunks 64 100 "f").length = 2 := by
  decide

end TinyDFS
